import Mathlib

/-!
Verification of the dense matrix-multiplication kernels of `src/main.cpp`
(`multiply_v0_bT`, `multiply_v0_aT`, `multiply_v1_aT`, `multiply_v2_aT`,
`multiply_v3_aT`, `epsilon_equal`, `transpose_matr`).

Buffers are modelled as total functions `ℕ → ℚ` (single-precision values are
modelled as exact rationals); a C `for` loop running its body for indices
`0, 1, ..., T-1` is modelled by the structural combinator `loop`, and a store
`c[i] = v` by `Function.update c i v`.  The runtime assertions guarding the
blocked variants are modelled by an `Option` result: `none` means the
assertion failed and no output was produced.
-/

namespace TvmLearn

/-- `loop f T c` runs the body `f` on iteration indices `0, ..., T-1`
in increasing order, threading the buffer state `c` through. -/
def loop {α : Type} (f : ℕ → α → α) : ℕ → α → α
  | 0, c => c
  | T + 1, c => f T (loop f T c)

/-- Inner `k` loop of `multiply_v0_bT` for a fixed `(m, n)`:
`c[m*N+n] = 0.0; for (k...) c[m*N+n] += a[m*K+k] * bT[n*K+k];`. -/
def mul0bT_k (a bT : ℕ → ℚ) (K N : ℕ) (m n : ℕ) (c : ℕ → ℚ) : ℕ → ℚ :=
  loop (fun k c => Function.update c (m * N + n)
      (c (m * N + n) + a (m * K + k) * bT (n * K + k))) K
    (Function.update c (m * N + n) 0)

/-- `n` loop of `multiply_v0_bT` for a fixed `m`. -/
def mul0bT_n (a bT : ℕ → ℚ) (K N : ℕ) (m : ℕ) (c : ℕ → ℚ) : ℕ → ℚ :=
  loop (fun n c => mul0bT_k a bT K N m n c) N c

/-- `multiply_v0_bT(a, bT, c, M, K, N)`: the naive kernel `c = a * bT`
with the right operand stored transposed (`bT[n, k] = bT[n*K+k]`). -/
def multiply_v0_bT (a bT c : ℕ → ℚ) (M K N : ℕ) : ℕ → ℚ :=
  loop (fun m c => mul0bT_n a bT K N m c) M c

/-- Inner `k` loop of `multiply_v0_aT` (and of `multiply_v1_aT`) for a fixed
`(m, n)`: `c[m*N+n] = 0.0; for (k...) c[m*N+n] += aT[k*M+m] * b[k*N+n];`. -/
def mul0aT_k (aT b : ℕ → ℚ) (M K N : ℕ) (m n : ℕ) (c : ℕ → ℚ) : ℕ → ℚ :=
  loop (fun k c => Function.update c (m * N + n)
      (c (m * N + n) + aT (k * M + m) * b (k * N + n))) K
    (Function.update c (m * N + n) 0)

/-- `n` loop of `multiply_v0_aT` for a fixed `m`. -/
def mul0aT_n (aT b : ℕ → ℚ) (M K N : ℕ) (m : ℕ) (c : ℕ → ℚ) : ℕ → ℚ :=
  loop (fun n c => mul0aT_k aT b M K N m n c) N c

/-- `multiply_v0_aT(aT, b, c, M, K, N)`: the naive kernel `c = aT * b`
with the left operand stored transposed (`aT[k, m] = aT[k*M+m]`). -/
def multiply_v0_aT (aT b c : ℕ → ℚ) (M K N : ℕ) : ℕ → ℚ :=
  loop (fun m c => mul0aT_n aT b M K N m c) M c

/-- Inner `n2` loop of `multiply_v1_aT` for a fixed `(m, n1 = 16*q)`: each
step runs the zero-then-accumulate body at flat output index `m*N + n1 + n2`,
which is exactly the `multiply_v0_aT` inner body at column `n1 + n2`. -/
def mul1aT_n2 (aT b : ℕ → ℚ) (M K N : ℕ) (m q : ℕ) (c : ℕ → ℚ) : ℕ → ℚ :=
  loop (fun n2 c => mul0aT_k aT b M K N m (16 * q + n2) c) 16 c

/-- Middle loop of `multiply_v1_aT`: `for (n1 = 0; n1 < N; n1 += 16)`,
modelled as `q = 0, ..., N/16 - 1` with `n1 = 16*q` (exact once the
assertion `N % 16 == 0` has passed). -/
def mul1aT_q (aT b : ℕ → ℚ) (M K N : ℕ) (m : ℕ) (c : ℕ → ℚ) : ℕ → ℚ :=
  loop (fun q c => mul1aT_n2 aT b M K N m q c) (N / 16) c

/-- Outer `m` loop of `multiply_v1_aT`. -/
def mul1aT_m (aT b : ℕ → ℚ) (M K N : ℕ) (c : ℕ → ℚ) : ℕ → ℚ :=
  loop (fun m c => mul1aT_q aT b M K N m c) M c

/-- `multiply_v1_aT(aT, b, c, M, K, N)`: `c = aT * b` with the `n` loop split
into a step-16 outer loop and a fixed 16-iteration inner loop.  The leading
`assert(N % 16 == 0)` is modelled by returning `none` when it fails. -/
def multiply_v1_aT (aT b c : ℕ → ℚ) (M K N : ℕ) : Option (ℕ → ℚ) :=
  if N % 16 = 0 then some (mul1aT_m aT b M K N c) else none

/-- The zeroing pass `for (i = 0; i < MN; i++) c[i] = 0.0;` shared by
`multiply_v2_aT` and `multiply_v3_aT`. -/
def zeroLoop (MN : ℕ) (c : ℕ → ℚ) : ℕ → ℚ :=
  loop (fun i c => Function.update c i 0) MN c

/-- Innermost `n2` loop of `multiply_v2_aT` for fixed `(m, q, k)`:
`for (n2...) c[m*N + 16*q + n2] += aT[k*M+m] * b[k*N + 16*q + n2];`. -/
def mul2aT_n2 (aT b : ℕ → ℚ) (M K N : ℕ) (m q k : ℕ) (c : ℕ → ℚ) : ℕ → ℚ :=
  loop (fun n2 c => Function.update c (m * N + 16 * q + n2)
      (c (m * N + 16 * q + n2) + aT (k * M + m) * b (k * N + 16 * q + n2))) 16 c

/-- `k` loop of `multiply_v2_aT` for fixed `(m, q)`. -/
def mul2aT_k (aT b : ℕ → ℚ) (M K N : ℕ) (m q : ℕ) (c : ℕ → ℚ) : ℕ → ℚ :=
  loop (fun k c => mul2aT_n2 aT b M K N m q k c) K c

/-- `n1` loop of `multiply_v2_aT` for a fixed `m` (`n1 = 16*q`). -/
def mul2aT_q (aT b : ℕ → ℚ) (M K N : ℕ) (m : ℕ) (c : ℕ → ℚ) : ℕ → ℚ :=
  loop (fun q c => mul2aT_k aT b M K N m q c) (N / 16) c

/-- Body of `multiply_v2_aT` after its assertion: zero the whole output
buffer, then run the `m` loop of accumulation passes. -/
def mul2aT_m (aT b : ℕ → ℚ) (M K N : ℕ) (c : ℕ → ℚ) : ℕ → ℚ :=
  loop (fun m c => mul2aT_q aT b M K N m c) M (zeroLoop (M * N) c)

/-- `multiply_v2_aT(aT, b, c, M, K, N)`: the accelerated variant, with the
contraction loop hoisted above the 16-wide output slice loop.  The leading
`assert(N % 16 == 0)` is modelled by returning `none` when it fails. -/
def multiply_v2_aT (aT b c : ℕ → ℚ) (M K N : ℕ) : Option (ℕ → ℚ) :=
  if N % 16 = 0 then some (mul2aT_m aT b M K N c) else none

/-- Innermost `n2` loop of `multiply_v3_aT` for fixed `(m1 = 16*p, q, k, m2)`:
`for (n2...) c[(m1+m2)*N + 16*q + n2] += aT[k*M + m1 + m2] * b[k*N + 16*q + n2];`. -/
def mul3aT_n2 (aT b : ℕ → ℚ) (M K N : ℕ) (p q k m2 : ℕ) (c : ℕ → ℚ) : ℕ → ℚ :=
  loop (fun n2 c => Function.update c ((16 * p + m2) * N + 16 * q + n2)
      (c ((16 * p + m2) * N + 16 * q + n2) +
        aT (k * M + 16 * p + m2) * b (k * N + 16 * q + n2))) 16 c

/-- `m2` loop of `multiply_v3_aT` for fixed `(p, q, k)`. -/
def mul3aT_m2 (aT b : ℕ → ℚ) (M K N : ℕ) (p q k : ℕ) (c : ℕ → ℚ) : ℕ → ℚ :=
  loop (fun m2 c => mul3aT_n2 aT b M K N p q k m2 c) 16 c

/-- `k` loop of `multiply_v3_aT` for fixed `(p, q)`. -/
def mul3aT_k (aT b : ℕ → ℚ) (M K N : ℕ) (p q : ℕ) (c : ℕ → ℚ) : ℕ → ℚ :=
  loop (fun k c => mul3aT_m2 aT b M K N p q k c) K c

/-- `n1` loop of `multiply_v3_aT` for a fixed `m1 = 16*p` (`n1 = 16*q`). -/
def mul3aT_q (aT b : ℕ → ℚ) (M K N : ℕ) (p : ℕ) (c : ℕ → ℚ) : ℕ → ℚ :=
  loop (fun q c => mul3aT_k aT b M K N p q c) (N / 16) c

/-- Body of `multiply_v3_aT` after its assertions: zero the whole output
buffer, then run the `m1` tile loop (`m1 = 16*p`). -/
def mul3aT_m1 (aT b : ℕ → ℚ) (M K N : ℕ) (c : ℕ → ℚ) : ℕ → ℚ :=
  loop (fun p c => mul3aT_q aT b M K N p c) (M / 16) (zeroLoop (M * N) c)

/-- `multiply_v3_aT(aT, b, c, M, K, N)`: the double-loop acceleration, tiling
both `M` and `N` by 16.  The leading `assert(N % 16 == 0)` and
`assert(M % 16 == 0)` are modelled by returning `none` when either fails. -/
def multiply_v3_aT (aT b c : ℕ → ℚ) (M K N : ℕ) : Option (ℕ → ℚ) :=
  if N % 16 = 0 ∧ M % 16 = 0 then some (mul3aT_m1 aT b M K N c) else none

/-- `epsilon_equal(a, b)`: equality with the given accuracy,
`std::abs(a - b) < 1e-4`. -/
def epsilon_equal (a b : ℚ) : Bool :=
  decide (|a - b| < 1 / 10000)

/-- `transpose_matr(p, pT, M, K)`: `pT[j*M+i] = p[i*K+j]` for all
`i < M`, `j < K`. -/
def transpose_matr (p pT : ℕ → ℚ) (M K : ℕ) : ℕ → ℚ :=
  loop (fun i c => loop (fun j c => Function.update c (j * M + i) (p (i * K + j))) K c)
    M pT

/-- The mathematical `(m, n)` entry of the product in the `aT`-layout
kernels: `∑ k < K, aT[k*M+m] * b[k*N+n]`. -/
def entry_aT (aT b : ℕ → ℚ) (M K N : ℕ) (m n : ℕ) : ℚ :=
  ∑ k ∈ Finset.range K, aT (k * M + m) * b (k * N + n)

/-- The mathematical `(m, n)` entry of the product in the `bT`-layout
kernel: `∑ k < K, a[m*K+k] * bT[n*K+k]`. -/
def entry_bT (a bT : ℕ → ℚ) (K : ℕ) (m n : ℕ) : ℚ :=
  ∑ k ∈ Finset.range K, a (m * K + k) * bT (n * K + k)

/-! ### Generic loop lemmas -/

/-- If every iteration `t < T` that satisfies `P t j` overwrites index `j`
with the value `g j` (depending only on `j`), and every other iteration
leaves index `j` alone, then after the loop index `j` holds `g j` as soon
as at least one iteration `t₀ < T` satisfies `P t₀ j`. -/
theorem loop_write_hit (P : ℕ → ℕ → Prop) (g : ℕ → ℚ) (f : ℕ → (ℕ → ℚ) → (ℕ → ℚ)) :
    ∀ T : ℕ,
      (∀ t, t < T → ∀ c j, P t j → f t c j = g j) →
      (∀ t, t < T → ∀ c j, ¬ P t j → f t c j = c j) →
      ∀ c j t₀, t₀ < T → P t₀ j → loop f T c j = g j := by
  intro T
  induction T with
  | zero => intro _ _ c j t₀ h hP; omega
  | succ T ih =>
    intro hhit hmiss c j t₀ ht₀ hP
    show f T (loop f T c) j = g j
    by_cases hPT : P T j
    · exact hhit T (Nat.lt_succ_self T) _ j hPT
    · rw [hmiss T (Nat.lt_succ_self T) _ j hPT]
      have ht₀T : t₀ < T := by
        rcases Nat.lt_succ_iff_lt_or_eq.mp ht₀ with h | h
        · exact h
        · exact absurd (h ▸ hP) hPT
      exact ih (fun t ht => hhit t (Nat.lt_succ_of_lt ht))
        (fun t ht => hmiss t (Nat.lt_succ_of_lt ht)) c j t₀ ht₀T hP

/-- If no iteration `t < T` touches index `j`, the loop leaves `j` alone. -/
theorem loop_miss (P : ℕ → ℕ → Prop) (f : ℕ → (ℕ → ℚ) → (ℕ → ℚ)) :
    ∀ T : ℕ,
      (∀ t, t < T → ∀ c j, ¬ P t j → f t c j = c j) →
      ∀ c j, (∀ t, t < T → ¬ P t j) → loop f T c j = c j := by
  intro T
  induction T with
  | zero => intro _ c j _; rfl
  | succ T ih =>
    intro hmiss c j hnone
    show f T (loop f T c) j = c j
    rw [hmiss T (Nat.lt_succ_self T) _ j (hnone T (Nat.lt_succ_self T))]
    exact ih (fun t ht => hmiss t (Nat.lt_succ_of_lt ht)) c j
      (fun t ht => hnone t (Nat.lt_succ_of_lt ht))

/-- Additive variant of `loop_write_hit`: if at most one iteration `t < T`
matches index `j` and that iteration adds `g j` to it, the loop adds `g j`
exactly once. -/
theorem loop_addOnce_hit (P : ℕ → ℕ → Prop) (g : ℕ → ℚ) (f : ℕ → (ℕ → ℚ) → (ℕ → ℚ)) :
    ∀ T : ℕ,
      (∀ t t' j, t < T → t' < T → P t j → P t' j → t = t') →
      (∀ t, t < T → ∀ c j, P t j → f t c j = c j + g j) →
      (∀ t, t < T → ∀ c j, ¬ P t j → f t c j = c j) →
      ∀ c j t₀, t₀ < T → P t₀ j → loop f T c j = c j + g j := by
  intro T
  induction T with
  | zero => intro _ _ _ c j t₀ h hP; omega
  | succ T ih =>
    intro hdisj hhit hmiss c j t₀ ht₀ hP
    show f T (loop f T c) j = c j + g j
    by_cases hPT : P T j
    · rw [hhit T (Nat.lt_succ_self T) _ j hPT]
      have hnone : ∀ t, t < T → ¬ P t j := by
        intro t ht hPt
        exact absurd (hdisj t T j (Nat.lt_succ_of_lt ht) (Nat.lt_succ_self T) hPt hPT)
          (Nat.ne_of_lt ht)
      rw [loop_miss P f T (fun t ht => hmiss t (Nat.lt_succ_of_lt ht)) c j hnone]
    · rw [hmiss T (Nat.lt_succ_self T) _ j hPT]
      have ht₀T : t₀ < T := by
        rcases Nat.lt_succ_iff_lt_or_eq.mp ht₀ with h | h
        · exact h
        · exact absurd (h ▸ hP) hPT
      exact ih (fun t t' j ht ht' => hdisj t t' j (Nat.lt_succ_of_lt ht) (Nat.lt_succ_of_lt ht'))
        (fun t ht => hhit t (Nat.lt_succ_of_lt ht))
        (fun t ht => hmiss t (Nat.lt_succ_of_lt ht)) c j t₀ ht₀T hP

/-- Accumulation lemma: if, at an index `j` satisfying a loop-independent
guard `Q`, every iteration `t` adds `A t j`, then the loop adds the sum of
all `A t j` for `t < T`. -/
theorem loop_accum (Q : ℕ → Prop) (A : ℕ → ℕ → ℚ) (f : ℕ → (ℕ → ℚ) → (ℕ → ℚ)) :
    ∀ T : ℕ,
      (∀ t, t < T → ∀ c j, Q j → f t c j = c j + A t j) →
      (∀ t, t < T → ∀ c j, ¬ Q j → f t c j = c j) →
      ∀ c j, Q j → loop f T c j = c j + ∑ t ∈ Finset.range T, A t j := by
  intro T
  induction T with
  | zero => intro _ _ c j _; simp [loop]
  | succ T ih =>
    intro hhit hmiss c j hQ
    show f T (loop f T c) j = c j + ∑ t ∈ Finset.range (T + 1), A t j
    rw [hhit T (Nat.lt_succ_self T) _ j hQ,
      ih (fun t ht => hhit t (Nat.lt_succ_of_lt ht))
        (fun t ht => hmiss t (Nat.lt_succ_of_lt ht)) c j hQ,
      Finset.sum_range_succ]
    ring

/-! ### Index arithmetic helpers -/

/-- Row recovery: `(m*N + n) / N = m` when `n < N`. -/
theorem rowcol_div {N m n : ℕ} (hn : n < N) : (m * N + n) / N = m := by
  have hN : 0 < N := lt_of_le_of_lt (Nat.zero_le n) hn
  rw [Nat.add_comm, Nat.mul_comm, Nat.add_mul_div_left _ _ hN, Nat.div_eq_of_lt hn,
    Nat.zero_add]

/-- Column recovery: `(m*N + n) % N = n` when `n < N`. -/
theorem rowcol_mod {N m n : ℕ} (hn : n < N) : (m * N + n) % N = n := by
  rw [Nat.add_comm, Nat.mul_comm, Nat.add_mul_mod_self_left, Nat.mod_eq_of_lt hn]

/-- A valid flat index is inside the buffer: `m*N + n < M*N`. -/
theorem rowcol_lt {M N m n : ℕ} (hm : m < M) (hn : n < N) : m * N + n < M * N := by
  calc m * N + n < m * N + N := by omega
    _ = (m + 1) * N := by ring
    _ ≤ M * N := Nat.mul_le_mul_right N hm

/-- Flat indices determine row and column: `m*N + n = m'*N + n'` with
`n, n' < N` forces `m = m'` and `n = n'`. -/
theorem rowcol_inj {N m n m' n' : ℕ} (hn : n < N) (hn' : n' < N)
    (h : m * N + n = m' * N + n') : m = m' ∧ n = n' := by
  have h1 : m = m' := by
    have e1 : (m * N + n) / N = m := rowcol_div hn
    rw [h, rowcol_div hn'] at e1
    exact e1.symm
  subst h1
  exact ⟨rfl, by omega⟩

/-- Tile decomposition stays in range: `16*q + n2 < N` when `16 ∣ N`,
`q < N/16` and `n2 < 16`. -/
theorem block_lt {N q n2 : ℕ} (hN : N % 16 = 0) (hq : q < N / 16) (hn2 : n2 < 16) :
    16 * q + n2 < N := by
  have h : 16 * (N / 16) = N := Nat.mul_div_cancel' (Nat.dvd_of_mod_eq_zero hN)
  have h2 : 16 * q + 16 ≤ 16 * (N / 16) := by
    calc 16 * q + 16 = 16 * (q + 1) := by ring
      _ ≤ 16 * (N / 16) := Nat.mul_le_mul_left 16 (Nat.succ_le_of_lt hq)
  omega

/-- Tile index stays in range: `n/16 < N/16` when `16 ∣ N` and `n < N`. -/
theorem blockIdx_lt {N n : ℕ} (hN : N % 16 = 0) (hn : n < N) : n / 16 < N / 16 :=
  Nat.div_lt_div_of_lt_of_dvd (Nat.dvd_of_mod_eq_zero hN) hn

/-! ### Element specifications of the naive kernels -/

/-- The zero-then-accumulate body of `multiply_v0_aT` leaves the value
`entry_aT m n` at flat index `m*N + n`. -/
theorem mul0aT_k_self (aT b : ℕ → ℚ) (M K N m n : ℕ) (c : ℕ → ℚ) :
    mul0aT_k aT b M K N m n c (m * N + n) = entry_aT aT b M K N m n := by
  unfold mul0aT_k
  rw [loop_accum (fun j => j = m * N + n) (fun k _ => aT (k * M + m) * b (k * N + n)) _ K
    (by intro k _ d j hj; subst hj; simp)
    (by intro k _ d j hj; exact Function.update_noteq hj _ d)
    _ _ rfl]
  simp [entry_aT]

/-- The zero-then-accumulate body of `multiply_v0_aT` does not touch any
other flat index. -/
theorem mul0aT_k_other (aT b : ℕ → ℚ) (M K N m n : ℕ) (c : ℕ → ℚ) (j : ℕ)
    (hj : j ≠ m * N + n) :
    mul0aT_k aT b M K N m n c j = c j := by
  unfold mul0aT_k
  rw [loop_miss (fun _ j => j = m * N + n) _ K
    (by intro k _ d j hj; exact Function.update_noteq hj _ d) _ _ (fun t _ => hj)]
  exact Function.update_noteq hj _ c

/-- After the `n` loop of `multiply_v0_aT` for row `m`, index `m*N + n`
holds `entry_aT m n` for every `n < N`. -/
theorem mul0aT_n_self (aT b : ℕ → ℚ) (M K N m : ℕ) (c : ℕ → ℚ) (n : ℕ) (hn : n < N) :
    mul0aT_n aT b M K N m c (m * N + n) = entry_aT aT b M K N m n := by
  unfold mul0aT_n
  rw [loop_write_hit (fun n j => j = m * N + n)
    (fun j => entry_aT aT b M K N m (j - m * N)) _ N
    (by
      intro n' _ d j hj
      subst hj
      rw [mul0aT_k_self]
      congr 1
      omega)
    (by intro n' _ d j hj; exact mul0aT_k_other aT b M K N m n' d j hj)
    c _ n hn rfl]
  congr 1
  omega

/-- The `n` loop of `multiply_v0_aT` for row `m` does not touch flat indices
outside row `m`. -/
theorem mul0aT_n_other (aT b : ℕ → ℚ) (M K N m : ℕ) (c : ℕ → ℚ) (j : ℕ)
    (hj : ∀ n, n < N → j ≠ m * N + n) :
    mul0aT_n aT b M K N m c j = c j := by
  unfold mul0aT_n
  exact loop_miss (fun n j => j = m * N + n) _ N
    (by intro n' _ d j hj'; exact mul0aT_k_other aT b M K N m n' d j hj') c j hj

/-- Element specification of the naive kernel `multiply_v0_aT`:
for `m < M` and `n < N`, the output at flat index `m*N + n` is
`∑ k < K, aT[k*M+m] * b[k*N+n]`, regardless of the initial contents of `c`. -/
theorem multiply_v0_aT_elem (aT b c : ℕ → ℚ) (M K N m n : ℕ) (hm : m < M) (hn : n < N) :
    multiply_v0_aT aT b c M K N (m * N + n) = entry_aT aT b M K N m n := by
  unfold multiply_v0_aT
  rw [loop_write_hit (fun m j => ∃ n', n' < N ∧ j = m * N + n')
    (fun j => entry_aT aT b M K N (j / N) (j % N)) _ M
    (by
      intro m' _ d j hj
      obtain ⟨n', hn', rfl⟩ := hj
      rw [mul0aT_n_self aT b M K N m' d n' hn']
      simp only [rowcol_div hn', rowcol_mod hn'])
    (by
      intro m' _ d j hj
      exact mul0aT_n_other aT b M K N m' d j (fun n' hn' he => hj ⟨n', hn', he⟩))
    c _ m hm ⟨n, hn, rfl⟩]
  simp only [rowcol_div hn, rowcol_mod hn]

/-- The zero-then-accumulate body of `multiply_v0_bT` leaves the value
`entry_bT m n` at flat index `m*N + n`. -/
theorem mul0bT_k_self (a bT : ℕ → ℚ) (K N m n : ℕ) (c : ℕ → ℚ) :
    mul0bT_k a bT K N m n c (m * N + n) = entry_bT a bT K m n := by
  unfold mul0bT_k
  rw [loop_accum (fun j => j = m * N + n) (fun k _ => a (m * K + k) * bT (n * K + k)) _ K
    (by intro k _ d j hj; subst hj; simp)
    (by intro k _ d j hj; exact Function.update_noteq hj _ d)
    _ _ rfl]
  simp [entry_bT]

/-- The zero-then-accumulate body of `multiply_v0_bT` does not touch any
other flat index. -/
theorem mul0bT_k_other (a bT : ℕ → ℚ) (K N m n : ℕ) (c : ℕ → ℚ) (j : ℕ)
    (hj : j ≠ m * N + n) :
    mul0bT_k a bT K N m n c j = c j := by
  unfold mul0bT_k
  rw [loop_miss (fun _ j => j = m * N + n) _ K
    (by intro k _ d j hj; exact Function.update_noteq hj _ d) _ _ (fun t _ => hj)]
  exact Function.update_noteq hj _ c

/-- After the `n` loop of `multiply_v0_bT` for row `m`, index `m*N + n`
holds `entry_bT m n` for every `n < N`. -/
theorem mul0bT_n_self (a bT : ℕ → ℚ) (K N m : ℕ) (c : ℕ → ℚ) (n : ℕ) (hn : n < N) :
    mul0bT_n a bT K N m c (m * N + n) = entry_bT a bT K m n := by
  unfold mul0bT_n
  rw [loop_write_hit (fun n j => j = m * N + n)
    (fun j => entry_bT a bT K m (j - m * N)) _ N
    (by
      intro n' _ d j hj
      subst hj
      rw [mul0bT_k_self]
      congr 1
      omega)
    (by intro n' _ d j hj; exact mul0bT_k_other a bT K N m n' d j hj)
    c _ n hn rfl]
  congr 1
  omega

/-- The `n` loop of `multiply_v0_bT` for row `m` does not touch flat indices
outside row `m`. -/
theorem mul0bT_n_other (a bT : ℕ → ℚ) (K N m : ℕ) (c : ℕ → ℚ) (j : ℕ)
    (hj : ∀ n, n < N → j ≠ m * N + n) :
    mul0bT_n a bT K N m c j = c j := by
  unfold mul0bT_n
  exact loop_miss (fun n j => j = m * N + n) _ N
    (by intro n' _ d j hj'; exact mul0bT_k_other a bT K N m n' d j hj') c j hj

/-- Element specification of the naive kernel `multiply_v0_bT`:
for `m < M` and `n < N`, the output at flat index `m*N + n` is
`∑ k < K, a[m*K+k] * bT[n*K+k]`, regardless of the initial contents of `c`. -/
theorem multiply_v0_bT_elem (a bT c : ℕ → ℚ) (M K N m n : ℕ) (hm : m < M) (hn : n < N) :
    multiply_v0_bT a bT c M K N (m * N + n) = entry_bT a bT K m n := by
  unfold multiply_v0_bT
  rw [loop_write_hit (fun m j => ∃ n', n' < N ∧ j = m * N + n')
    (fun j => entry_bT a bT K (j / N) (j % N)) _ M
    (by
      intro m' _ d j hj
      obtain ⟨n', hn', rfl⟩ := hj
      rw [mul0bT_n_self a bT K N m' d n' hn']
      simp only [rowcol_div hn', rowcol_mod hn'])
    (by
      intro m' _ d j hj
      exact mul0bT_n_other a bT K N m' d j (fun n' hn' he => hj ⟨n', hn', he⟩))
    c _ m hm ⟨n, hn, rfl⟩]
  simp only [rowcol_div hn, rowcol_mod hn]

/-! ### The zeroing pass -/

/-- The zeroing pass clears every index below `MN`. -/
theorem zeroLoop_lt (MN : ℕ) (c : ℕ → ℚ) (j : ℕ) (hj : j < MN) : zeroLoop MN c j = 0 := by
  unfold zeroLoop
  exact loop_write_hit (fun i j => j = i) (fun _ => 0) _ MN
    (by intro i _ d j hj; subst hj; simp)
    (by intro i _ d j hj; exact Function.update_noteq hj _ d)
    c j j hj rfl

/-- The zeroing pass leaves every index at or above `MN` alone. -/
theorem zeroLoop_ge (MN : ℕ) (c : ℕ → ℚ) (j : ℕ) (hj : MN ≤ j) : zeroLoop MN c j = c j := by
  unfold zeroLoop
  exact loop_miss (fun i j => j = i) _ MN
    (by intro i _ d j hj; exact Function.update_noteq hj _ d)
    c j (by intro t ht he; omega)

/-! ### Element specification of `multiply_v1_aT` -/

/-- The tile body of `multiply_v1_aT` leaves `entry_aT m (16*q + n2)` at
flat index `m*N + (16*q + n2)`. -/
theorem mul1aT_n2_self (aT b : ℕ → ℚ) (M K N m q : ℕ) (c : ℕ → ℚ) (n2 : ℕ) (h : n2 < 16) :
    mul1aT_n2 aT b M K N m q c (m * N + (16 * q + n2))
      = entry_aT aT b M K N m (16 * q + n2) := by
  unfold mul1aT_n2
  rw [loop_write_hit (fun n2 j => j = m * N + (16 * q + n2))
    (fun j => entry_aT aT b M K N m (j - m * N)) _ 16
    (by
      intro t _ d j hj
      subst hj
      rw [mul0aT_k_self]
      congr 1
      omega)
    (by intro t _ d j hj; exact mul0aT_k_other aT b M K N m (16 * q + t) d j hj)
    c _ n2 h rfl]
  congr 1
  omega

/-- The tile body of `multiply_v1_aT` does not touch other flat indices. -/
theorem mul1aT_n2_other (aT b : ℕ → ℚ) (M K N m q : ℕ) (c : ℕ → ℚ) (j : ℕ)
    (hj : ∀ n2, n2 < 16 → j ≠ m * N + (16 * q + n2)) :
    mul1aT_n2 aT b M K N m q c j = c j := by
  unfold mul1aT_n2
  exact loop_miss (fun n2 j => j = m * N + (16 * q + n2)) _ 16
    (by intro t _ d j hj'; exact mul0aT_k_other aT b M K N m (16 * q + t) d j hj')
    c j hj

/-- After the `n1` loop of `multiply_v1_aT` for row `m`, index `m*N + n`
holds `entry_aT m n` for every `n < N` (using `N % 16 = 0` for coverage). -/
theorem mul1aT_q_self (aT b : ℕ → ℚ) (M K N m : ℕ) (c : ℕ → ℚ) (n : ℕ)
    (hN : N % 16 = 0) (hn : n < N) :
    mul1aT_q aT b M K N m c (m * N + n) = entry_aT aT b M K N m n := by
  unfold mul1aT_q
  rw [loop_write_hit (fun q j => ∃ n2, n2 < 16 ∧ j = m * N + (16 * q + n2))
    (fun j => entry_aT aT b M K N m (j - m * N)) _ (N / 16)
    (by
      intro q _ d j hj
      obtain ⟨n2, hn2, rfl⟩ := hj
      rw [mul1aT_n2_self aT b M K N m q d n2 hn2]
      congr 1
      omega)
    (by
      intro q _ d j hj
      exact mul1aT_n2_other aT b M K N m q d j (fun n2 hn2 he => hj ⟨n2, hn2, he⟩))
    c _ (n / 16) (blockIdx_lt hN hn) ⟨n % 16, Nat.mod_lt n (by omega), by omega⟩]
  congr 1
  omega

/-- The `n1` loop of `multiply_v1_aT` for row `m` does not touch flat
indices outside the tiles of row `m`. -/
theorem mul1aT_q_other (aT b : ℕ → ℚ) (M K N m : ℕ) (c : ℕ → ℚ) (j : ℕ)
    (hj : ∀ q, q < N / 16 → ∀ n2, n2 < 16 → j ≠ m * N + (16 * q + n2)) :
    mul1aT_q aT b M K N m c j = c j := by
  unfold mul1aT_q
  exact loop_miss (fun q j => ∃ n2, n2 < 16 ∧ j = m * N + (16 * q + n2)) _ (N / 16)
    (by
      intro q _ d j hj'
      exact mul1aT_n2_other aT b M K N m q d j (fun n2 hn2 he => hj' ⟨n2, hn2, he⟩))
    c j
    (by
      intro q hq hex
      obtain ⟨n2, hn2, he⟩ := hex
      exact hj q hq n2 hn2 he)

/-- Element specification of the body of `multiply_v1_aT`: for `m < M` and
`n < N`, with `N % 16 = 0`, the output at flat index `m*N + n` agrees with
the naive entry `entry_aT m n`, regardless of the initial contents of `c`. -/
theorem mul1aT_m_elem (aT b : ℕ → ℚ) (M K N : ℕ) (c : ℕ → ℚ) (m n : ℕ)
    (hN : N % 16 = 0) (hm : m < M) (hn : n < N) :
    mul1aT_m aT b M K N c (m * N + n) = entry_aT aT b M K N m n := by
  unfold mul1aT_m
  rw [loop_write_hit (fun m j => ∃ n', n' < N ∧ j = m * N + n')
    (fun j => entry_aT aT b M K N (j / N) (j % N)) _ M
    (by
      intro m' _ d j hj
      obtain ⟨n', hn', rfl⟩ := hj
      rw [mul1aT_q_self aT b M K N m' d n' hN hn']
      simp only [rowcol_div hn', rowcol_mod hn'])
    (by
      intro m' _ d j hj
      refine mul1aT_q_other aT b M K N m' d j ?_
      intro q hq n2 hn2 he
      exact hj ⟨16 * q + n2, block_lt hN hq hn2, he⟩)
    c _ m hm ⟨n, hn, rfl⟩]
  simp only [rowcol_div hn, rowcol_mod hn]

/-! ### Element specification of `multiply_v2_aT` -/

/-- The innermost `n2` loop of `multiply_v2_aT` adds one `k` contribution to
each index of the current 16-wide output slice. -/
theorem mul2aT_n2_hit (aT b : ℕ → ℚ) (M K N m q k : ℕ) (c : ℕ → ℚ) (n2 : ℕ) (h : n2 < 16) :
    mul2aT_n2 aT b M K N m q k c (m * N + 16 * q + n2)
      = c (m * N + 16 * q + n2) + aT (k * M + m) * b (k * N + 16 * q + n2) := by
  unfold mul2aT_n2
  rw [loop_addOnce_hit (fun t j => j = m * N + 16 * q + t)
    (fun j => aT (k * M + m) * b (k * N + 16 * q + (j - (m * N + 16 * q)))) _ 16
    (by intro t t' j _ _ h1 h2; omega)
    (by
      intro t _ d j hj
      subst hj
      have e : m * N + 16 * q + t - (m * N + 16 * q) = t := by omega
      simp [Function.update_same, e])
    (by intro t _ d j hj; exact Function.update_noteq hj _ d)
    c _ n2 h rfl]
  have e : m * N + 16 * q + n2 - (m * N + 16 * q) = n2 := by omega
  simp only [e]

/-- The innermost `n2` loop of `multiply_v2_aT` does not touch other
flat indices. -/
theorem mul2aT_n2_other (aT b : ℕ → ℚ) (M K N m q k : ℕ) (c : ℕ → ℚ) (j : ℕ)
    (hj : ∀ n2, n2 < 16 → j ≠ m * N + 16 * q + n2) :
    mul2aT_n2 aT b M K N m q k c j = c j := by
  unfold mul2aT_n2
  exact loop_miss (fun t j => j = m * N + 16 * q + t) _ 16
    (by intro t _ d j hj'; exact Function.update_noteq hj' _ d)
    c j hj

/-- The `k` loop of `multiply_v2_aT` accumulates the whole contraction sum
onto each index of the current 16-wide output slice. -/
theorem mul2aT_k_hit (aT b : ℕ → ℚ) (M K N m q : ℕ) (c : ℕ → ℚ) (n2 : ℕ) (h : n2 < 16) :
    mul2aT_k aT b M K N m q c (m * N + 16 * q + n2)
      = c (m * N + 16 * q + n2) + entry_aT aT b M K N m (16 * q + n2) := by
  unfold mul2aT_k
  rw [loop_accum (fun j => ∃ t, t < 16 ∧ j = m * N + 16 * q + t)
    (fun k j => aT (k * M + m) * b (k * N + 16 * q + (j - (m * N + 16 * q)))) _ K
    (by
      intro k _ d j hj
      obtain ⟨t, ht, rfl⟩ := hj
      rw [mul2aT_n2_hit aT b M K N m q k d t ht]
      have e : m * N + 16 * q + t - (m * N + 16 * q) = t := by omega
      simp only [e])
    (by
      intro k _ d j hj
      exact mul2aT_n2_other aT b M K N m q k d j (fun t ht he => hj ⟨t, ht, he⟩))
    c _ ⟨n2, h, rfl⟩]
  have e : m * N + 16 * q + n2 - (m * N + 16 * q) = n2 := by omega
  simp only [e]
  simp only [entry_aT, Nat.add_assoc]

/-- The `k` loop of `multiply_v2_aT` does not touch other flat indices. -/
theorem mul2aT_k_other (aT b : ℕ → ℚ) (M K N m q : ℕ) (c : ℕ → ℚ) (j : ℕ)
    (hj : ∀ n2, n2 < 16 → j ≠ m * N + 16 * q + n2) :
    mul2aT_k aT b M K N m q c j = c j := by
  unfold mul2aT_k
  exact loop_miss (fun k j => ∃ t, t < 16 ∧ j = m * N + 16 * q + t) _ K
    (by
      intro k _ d j hj'
      exact mul2aT_n2_other aT b M K N m q k d j (fun t ht he => hj' ⟨t, ht, he⟩))
    c j
    (by
      intro k _ hex
      obtain ⟨t, ht, he⟩ := hex
      exact hj t ht he)

/-- The `n1` loop of `multiply_v2_aT` for row `m` adds `entry_aT m n` to
index `m*N + n` for every `n < N`, given `N % 16 = 0`. -/
theorem mul2aT_q_hit (aT b : ℕ → ℚ) (M K N m : ℕ) (c : ℕ → ℚ) (n : ℕ)
    (hN : N % 16 = 0) (hn : n < N) :
    mul2aT_q aT b M K N m c (m * N + n) = c (m * N + n) + entry_aT aT b M K N m n := by
  unfold mul2aT_q
  rw [loop_addOnce_hit (fun q j => ∃ n2, n2 < 16 ∧ j = m * N + 16 * q + n2)
    (fun j => entry_aT aT b M K N m (j - m * N)) _ (N / 16)
    (by
      intro q q' j hq hq' h1 h2
      obtain ⟨t, ht, rfl⟩ := h1
      obtain ⟨t', ht', he⟩ := h2
      omega)
    (by
      intro q _ d j hj
      obtain ⟨t, ht, rfl⟩ := hj
      rw [mul2aT_k_hit aT b M K N m q d t ht]
      have e : m * N + 16 * q + t - m * N = 16 * q + t := by omega
      simp only [e])
    (by
      intro q _ d j hj
      exact mul2aT_k_other aT b M K N m q d j (fun t ht he => hj ⟨t, ht, he⟩))
    c _ (n / 16) (blockIdx_lt hN hn) ⟨n % 16, Nat.mod_lt n (by omega), by omega⟩]
  have e : m * N + n - m * N = n := by omega
  simp only [e]

/-- The `n1` loop of `multiply_v2_aT` for row `m` does not touch flat
indices outside the tiles of row `m`. -/
theorem mul2aT_q_other (aT b : ℕ → ℚ) (M K N m : ℕ) (c : ℕ → ℚ) (j : ℕ)
    (hj : ∀ q, q < N / 16 → ∀ n2, n2 < 16 → j ≠ m * N + 16 * q + n2) :
    mul2aT_q aT b M K N m c j = c j := by
  unfold mul2aT_q
  exact loop_miss (fun q j => ∃ n2, n2 < 16 ∧ j = m * N + 16 * q + n2) _ (N / 16)
    (by
      intro q _ d j hj'
      exact mul2aT_k_other aT b M K N m q d j (fun t ht he => hj' ⟨t, ht, he⟩))
    c j
    (by
      intro q hq hex
      obtain ⟨t, ht, he⟩ := hex
      exact hj q hq t ht he)

/-- Element specification of the body of `multiply_v2_aT`: for `m < M` and
`n < N`, with `N % 16 = 0`, the output at flat index `m*N + n` agrees with
the naive entry `entry_aT m n`, regardless of the initial contents of `c`. -/
theorem mul2aT_m_elem (aT b : ℕ → ℚ) (M K N : ℕ) (c : ℕ → ℚ) (m n : ℕ)
    (hN : N % 16 = 0) (hm : m < M) (hn : n < N) :
    mul2aT_m aT b M K N c (m * N + n) = entry_aT aT b M K N m n := by
  unfold mul2aT_m
  rw [loop_addOnce_hit (fun m j => ∃ n', n' < N ∧ j = m * N + n')
    (fun j => entry_aT aT b M K N (j / N) (j % N)) _ M
    (by
      intro m1 m2 j _ _ h1 h2
      obtain ⟨t, ht, rfl⟩ := h1
      obtain ⟨t', ht', he⟩ := h2
      exact (rowcol_inj ht ht' he).1)
    (by
      intro m' _ d j hj
      obtain ⟨n', hn', rfl⟩ := hj
      rw [mul2aT_q_hit aT b M K N m' d n' hN hn']
      simp only [rowcol_div hn', rowcol_mod hn'])
    (by
      intro m' _ d j hj
      refine mul2aT_q_other aT b M K N m' d j ?_
      intro q hq n2 hn2 he
      exact hj ⟨16 * q + n2, block_lt hN hq hn2, by omega⟩)
    (zeroLoop (M * N) c) _ m hm ⟨n, hn, rfl⟩]
  rw [zeroLoop_lt (M * N) c _ (rowcol_lt hm hn)]
  simp only [rowcol_div hn, rowcol_mod hn]
  ring

/-- The result of the body of `multiply_v2_aT` inside the output region is
independent of the initial contents of the output buffer. -/
theorem mul2aT_m_indep (aT b : ℕ → ℚ) (M K N : ℕ) (c c' : ℕ → ℚ) (j : ℕ)
    (hN : N % 16 = 0) (hj : j < M * N) :
    mul2aT_m aT b M K N c j = mul2aT_m aT b M K N c' j := by
  rcases Nat.eq_zero_or_pos N with h0 | hN0
  · subst h0
    simp at hj
  · have hdiv : j / N < M := by
      rw [Nat.div_lt_iff_lt_mul hN0]
      exact hj
    have hmod : j % N < N := Nat.mod_lt j hN0
    have e : j / N * N + j % N = j := Nat.div_add_mod' j N
    calc mul2aT_m aT b M K N c j
        = mul2aT_m aT b M K N c (j / N * N + j % N) := by rw [e]
      _ = entry_aT aT b M K N (j / N) (j % N) := mul2aT_m_elem aT b M K N c _ _ hN hdiv hmod
      _ = mul2aT_m aT b M K N c' (j / N * N + j % N) :=
          (mul2aT_m_elem aT b M K N c' _ _ hN hdiv hmod).symm
      _ = mul2aT_m aT b M K N c' j := by rw [e]

/-! ### Element specification of `multiply_v3_aT` -/

/-- The innermost `n2` loop of `multiply_v3_aT` adds one `k` contribution to
each index of the current 16-wide slice of row `16*p + m2`. -/
theorem mul3aT_n2_hit (aT b : ℕ → ℚ) (M K N p q k m2 : ℕ) (c : ℕ → ℚ) (n2 : ℕ) (h : n2 < 16) :
    mul3aT_n2 aT b M K N p q k m2 c ((16 * p + m2) * N + 16 * q + n2)
      = c ((16 * p + m2) * N + 16 * q + n2)
        + aT (k * M + 16 * p + m2) * b (k * N + 16 * q + n2) := by
  unfold mul3aT_n2
  rw [loop_addOnce_hit (fun t j => j = (16 * p + m2) * N + 16 * q + t)
    (fun j => aT (k * M + 16 * p + m2)
      * b (k * N + 16 * q + (j - ((16 * p + m2) * N + 16 * q)))) _ 16
    (by intro t t' j _ _ h1 h2; omega)
    (by
      intro t _ d j hj
      subst hj
      have e : (16 * p + m2) * N + 16 * q + t - ((16 * p + m2) * N + 16 * q) = t := by omega
      simp [Function.update_same, e])
    (by intro t _ d j hj; exact Function.update_noteq hj _ d)
    c _ n2 h rfl]
  have e : (16 * p + m2) * N + 16 * q + n2 - ((16 * p + m2) * N + 16 * q) = n2 := by omega
  simp only [e]

/-- The innermost `n2` loop of `multiply_v3_aT` does not touch other
flat indices. -/
theorem mul3aT_n2_other (aT b : ℕ → ℚ) (M K N p q k m2 : ℕ) (c : ℕ → ℚ) (j : ℕ)
    (hj : ∀ n2, n2 < 16 → j ≠ (16 * p + m2) * N + 16 * q + n2) :
    mul3aT_n2 aT b M K N p q k m2 c j = c j := by
  unfold mul3aT_n2
  exact loop_miss (fun t j => j = (16 * p + m2) * N + 16 * q + t) _ 16
    (by intro t _ d j hj'; exact Function.update_noteq hj' _ d)
    c j hj

/-- The `m2` loop of `multiply_v3_aT` adds one `k` contribution to each
index of the current 16-by-16 output tile. -/
theorem mul3aT_m2_hit (aT b : ℕ → ℚ) (M K N p q k : ℕ) (c : ℕ → ℚ) (m2 n2 : ℕ)
    (hN : N % 16 = 0) (hq : q < N / 16) (hm2 : m2 < 16) (hn2 : n2 < 16) :
    mul3aT_m2 aT b M K N p q k c ((16 * p + m2) * N + 16 * q + n2)
      = c ((16 * p + m2) * N + 16 * q + n2)
        + aT (k * M + 16 * p + m2) * b (k * N + 16 * q + n2) := by
  unfold mul3aT_m2
  rw [loop_addOnce_hit (fun t j => ∃ s, s < 16 ∧ j = (16 * p + t) * N + 16 * q + s)
    (fun j => aT (k * M + j / N) * b (k * N + 16 * q + (j % N - 16 * q))) _ 16
    (by
      intro t t' j _ _ h1 h2
      obtain ⟨s, hs, rfl⟩ := h1
      obtain ⟨s', hs', he⟩ := h2
      rw [Nat.add_assoc, Nat.add_assoc] at he
      have := rowcol_inj (block_lt hN hq hs) (block_lt hN hq hs') he
      omega)
    (by
      intro t _ d j hj
      obtain ⟨s, hs, rfl⟩ := hj
      rw [mul3aT_n2_hit aT b M K N p q k t d s hs]
      have hlt : 16 * q + s < N := block_lt hN hq hs
      have hdiv : ((16 * p + t) * N + 16 * q + s) / N = 16 * p + t := by
        rw [Nat.add_assoc]; exact rowcol_div hlt
      have hmod : ((16 * p + t) * N + 16 * q + s) % N = 16 * q + s := by
        rw [Nat.add_assoc]; exact rowcol_mod hlt
      simp only [hdiv, hmod]
      have e : 16 * q + s - 16 * q = s := by omega
      simp only [e]
      simp only [Nat.add_assoc])
    (by
      intro t _ d j hj
      exact mul3aT_n2_other aT b M K N p q k t d j (fun s hs he => hj ⟨s, hs, he⟩))
    c _ m2 hm2 ⟨n2, hn2, rfl⟩]
  have hlt : 16 * q + n2 < N := block_lt hN hq hn2
  have hdiv : ((16 * p + m2) * N + 16 * q + n2) / N = 16 * p + m2 := by
    rw [Nat.add_assoc]; exact rowcol_div hlt
  have hmod : ((16 * p + m2) * N + 16 * q + n2) % N = 16 * q + n2 := by
    rw [Nat.add_assoc]; exact rowcol_mod hlt
  simp only [hdiv, hmod]
  have e : 16 * q + n2 - 16 * q = n2 := by omega
  simp only [e]
  simp only [Nat.add_assoc]

/-- The `m2` loop of `multiply_v3_aT` does not touch flat indices outside
the current tile. -/
theorem mul3aT_m2_other (aT b : ℕ → ℚ) (M K N p q k : ℕ) (c : ℕ → ℚ) (j : ℕ)
    (hj : ∀ m2, m2 < 16 → ∀ n2, n2 < 16 → j ≠ (16 * p + m2) * N + 16 * q + n2) :
    mul3aT_m2 aT b M K N p q k c j = c j := by
  unfold mul3aT_m2
  exact loop_miss (fun t j => ∃ s, s < 16 ∧ j = (16 * p + t) * N + 16 * q + s) _ 16
    (by
      intro t _ d j hj'
      exact mul3aT_n2_other aT b M K N p q k t d j (fun s hs he => hj' ⟨s, hs, he⟩))
    c j
    (by
      intro t ht hex
      obtain ⟨s, hs, he⟩ := hex
      exact hj t ht s hs he)

/-- The `k` loop of `multiply_v3_aT` accumulates the whole contraction sum
onto each index of the current 16-by-16 output tile. -/
theorem mul3aT_k_hit (aT b : ℕ → ℚ) (M K N p q : ℕ) (c : ℕ → ℚ) (m2 n2 : ℕ)
    (hN : N % 16 = 0) (hq : q < N / 16) (hm2 : m2 < 16) (hn2 : n2 < 16) :
    mul3aT_k aT b M K N p q c ((16 * p + m2) * N + 16 * q + n2)
      = c ((16 * p + m2) * N + 16 * q + n2)
        + entry_aT aT b M K N (16 * p + m2) (16 * q + n2) := by
  unfold mul3aT_k
  rw [loop_accum (fun j => ∃ t, t < 16 ∧ ∃ s, s < 16 ∧ j = (16 * p + t) * N + 16 * q + s)
    (fun k j => aT (k * M + j / N) * b (k * N + 16 * q + (j % N - 16 * q))) _ K
    (by
      intro k _ d j hj
      obtain ⟨t, ht, s, hs, rfl⟩ := hj
      rw [mul3aT_m2_hit aT b M K N p q k d t s hN hq ht hs]
      have hlt : 16 * q + s < N := block_lt hN hq hs
      have hdiv : ((16 * p + t) * N + 16 * q + s) / N = 16 * p + t := by
        rw [Nat.add_assoc]; exact rowcol_div hlt
      have hmod : ((16 * p + t) * N + 16 * q + s) % N = 16 * q + s := by
        rw [Nat.add_assoc]; exact rowcol_mod hlt
      simp only [hdiv, hmod]
      have e : 16 * q + s - 16 * q = s := by omega
      simp only [e]
      simp only [Nat.add_assoc])
    (by
      intro k _ d j hj
      refine mul3aT_m2_other aT b M K N p q k d j ?_
      intro t ht s hs he
      exact hj ⟨t, ht, s, hs, he⟩)
    c _ ⟨m2, hm2, n2, hn2, rfl⟩]
  have hlt : 16 * q + n2 < N := block_lt hN hq hn2
  have hdiv : ((16 * p + m2) * N + 16 * q + n2) / N = 16 * p + m2 := by
    rw [Nat.add_assoc]; exact rowcol_div hlt
  have hmod : ((16 * p + m2) * N + 16 * q + n2) % N = 16 * q + n2 := by
    rw [Nat.add_assoc]; exact rowcol_mod hlt
  simp only [hdiv, hmod]
  have e : 16 * q + n2 - 16 * q = n2 := by omega
  simp only [e]
  simp only [entry_aT, Nat.add_assoc]

/-- The `k` loop of `multiply_v3_aT` does not touch flat indices outside
the current tile. -/
theorem mul3aT_k_other (aT b : ℕ → ℚ) (M K N p q : ℕ) (c : ℕ → ℚ) (j : ℕ)
    (hj : ∀ m2, m2 < 16 → ∀ n2, n2 < 16 → j ≠ (16 * p + m2) * N + 16 * q + n2) :
    mul3aT_k aT b M K N p q c j = c j := by
  unfold mul3aT_k
  exact loop_miss (fun k j => ∃ t, t < 16 ∧ ∃ s, s < 16 ∧ j = (16 * p + t) * N + 16 * q + s) _ K
    (by
      intro k _ d j hj'
      refine mul3aT_m2_other aT b M K N p q k d j ?_
      intro t ht s hs he
      exact hj' ⟨t, ht, s, hs, he⟩)
    c j
    (by
      intro k _ hex
      obtain ⟨t, ht, s, hs, he⟩ := hex
      exact hj t ht s hs he)

/-- The `n1` loop of `multiply_v3_aT` adds `entry_aT (16*p + m2) n` to
every index of row `16*p + m2`, given `N % 16 = 0`. -/
theorem mul3aT_q_hit (aT b : ℕ → ℚ) (M K N p : ℕ) (c : ℕ → ℚ) (m2 n : ℕ)
    (hN : N % 16 = 0) (hm2 : m2 < 16) (hn : n < N) :
    mul3aT_q aT b M K N p c ((16 * p + m2) * N + n)
      = c ((16 * p + m2) * N + n) + entry_aT aT b M K N (16 * p + m2) n := by
  unfold mul3aT_q
  rw [loop_addOnce_hit
    (fun q j => ∃ t, t < 16 ∧ ∃ s, s < 16 ∧ j = (16 * p + t) * N + 16 * q + s)
    (fun j => entry_aT aT b M K N (j / N) (j % N)) _ (N / 16)
    (by
      intro q q' j hq hq' h1 h2
      obtain ⟨t, ht, s, hs, rfl⟩ := h1
      obtain ⟨t', ht', s', hs', he⟩ := h2
      rw [Nat.add_assoc, Nat.add_assoc] at he
      have := rowcol_inj (block_lt hN hq hs) (block_lt hN hq' hs') he
      omega)
    (by
      intro q hq d j hj
      obtain ⟨t, ht, s, hs, rfl⟩ := hj
      rw [mul3aT_k_hit aT b M K N p q d t s hN hq ht hs]
      have hlt : 16 * q + s < N := block_lt hN hq hs
      have hdiv : ((16 * p + t) * N + 16 * q + s) / N = 16 * p + t := by
        rw [Nat.add_assoc]; exact rowcol_div hlt
      have hmod : ((16 * p + t) * N + 16 * q + s) % N = 16 * q + s := by
        rw [Nat.add_assoc]; exact rowcol_mod hlt
      simp only [hdiv, hmod])
    (by
      intro q _ d j hj
      refine mul3aT_k_other aT b M K N p q d j ?_
      intro t ht s hs he
      exact hj ⟨t, ht, s, hs, he⟩)
    c _ (n / 16) (blockIdx_lt hN hn)
    ⟨m2, hm2, n % 16, Nat.mod_lt n (by omega), by omega⟩]
  simp only [rowcol_div hn, rowcol_mod hn]

/-- The `n1` loop of `multiply_v3_aT` does not touch flat indices outside
the tiles of rows `16*p, ..., 16*p + 15`. -/
theorem mul3aT_q_other (aT b : ℕ → ℚ) (M K N p : ℕ) (c : ℕ → ℚ) (j : ℕ)
    (hj : ∀ q, q < N / 16 → ∀ m2, m2 < 16 → ∀ n2, n2 < 16 →
      j ≠ (16 * p + m2) * N + 16 * q + n2) :
    mul3aT_q aT b M K N p c j = c j := by
  unfold mul3aT_q
  exact loop_miss
    (fun q j => ∃ t, t < 16 ∧ ∃ s, s < 16 ∧ j = (16 * p + t) * N + 16 * q + s) _ (N / 16)
    (by
      intro q _ d j hj'
      refine mul3aT_k_other aT b M K N p q d j ?_
      intro t ht s hs he
      exact hj' ⟨t, ht, s, hs, he⟩)
    c j
    (by
      intro q hq hex
      obtain ⟨t, ht, s, hs, he⟩ := hex
      exact hj q hq t ht s hs he)

/-- Element specification of the body of `multiply_v3_aT`: for `m < M` and
`n < N`, with `N % 16 = 0` and `M % 16 = 0`, the output at flat index
`m*N + n` agrees with the naive entry `entry_aT m n`, regardless of the
initial contents of `c`. -/
theorem mul3aT_m1_elem (aT b : ℕ → ℚ) (M K N : ℕ) (c : ℕ → ℚ) (m n : ℕ)
    (hN : N % 16 = 0) (hM : M % 16 = 0) (hm : m < M) (hn : n < N) :
    mul3aT_m1 aT b M K N c (m * N + n) = entry_aT aT b M K N m n := by
  have e1 : 16 * (m / 16) + m % 16 = m := by omega
  unfold mul3aT_m1
  rw [loop_addOnce_hit
    (fun p j => ∃ t, t < 16 ∧ ∃ n', n' < N ∧ j = (16 * p + t) * N + n')
    (fun j => entry_aT aT b M K N (j / N) (j % N)) _ (M / 16)
    (by
      intro p p' j _ _ h1 h2
      obtain ⟨t, ht, n', hn', rfl⟩ := h1
      obtain ⟨t', ht', n'', hn'', he⟩ := h2
      have := rowcol_inj hn' hn'' he
      omega)
    (by
      intro p _ d j hj
      obtain ⟨t, ht, n', hn', rfl⟩ := hj
      rw [mul3aT_q_hit aT b M K N p d t n' hN ht hn']
      simp only [rowcol_div hn', rowcol_mod hn'])
    (by
      intro p _ d j hj
      refine mul3aT_q_other aT b M K N p d j ?_
      intro q hq t ht s hs he
      exact hj ⟨t, ht, 16 * q + s, block_lt hN hq hs, by omega⟩)
    (zeroLoop (M * N) c) _ (m / 16) (blockIdx_lt hM hm)
    ⟨m % 16, Nat.mod_lt m (by omega), n, hn, by rw [e1]⟩]
  rw [zeroLoop_lt (M * N) c _ (rowcol_lt hm hn)]
  simp only [rowcol_div hn, rowcol_mod hn]
  ring

/-- The result of the body of `multiply_v3_aT` inside the output region is
independent of the initial contents of the output buffer. -/
theorem mul3aT_m1_indep (aT b : ℕ → ℚ) (M K N : ℕ) (c c' : ℕ → ℚ) (j : ℕ)
    (hN : N % 16 = 0) (hM : M % 16 = 0) (hj : j < M * N) :
    mul3aT_m1 aT b M K N c j = mul3aT_m1 aT b M K N c' j := by
  rcases Nat.eq_zero_or_pos N with h0 | hN0
  · subst h0
    simp at hj
  · have hdiv : j / N < M := by
      rw [Nat.div_lt_iff_lt_mul hN0]
      exact hj
    have hmod : j % N < N := Nat.mod_lt j hN0
    have e : j / N * N + j % N = j := Nat.div_add_mod' j N
    calc mul3aT_m1 aT b M K N c j
        = mul3aT_m1 aT b M K N c (j / N * N + j % N) := by rw [e]
      _ = entry_aT aT b M K N (j / N) (j % N) :=
          mul3aT_m1_elem aT b M K N c _ _ hN hM hdiv hmod
      _ = mul3aT_m1 aT b M K N c' (j / N * N + j % N) :=
          (mul3aT_m1_elem aT b M K N c' _ _ hN hM hdiv hmod).symm
      _ = mul3aT_m1 aT b M K N c' j := by rw [e]

/-! ### Element specification of `transpose_matr` -/

/-- Element specification of `transpose_matr`: for `i < M` and `j < K`, the
output at flat index `j*M + i` is the input at flat index `i*K + j`,
regardless of the initial contents of `pT`. -/
theorem transpose_matr_elem (p pT : ℕ → ℚ) (M K : ℕ) (i j : ℕ) (hi : i < M) (hj : j < K) :
    transpose_matr p pT M K (j * M + i) = p (i * K + j) := by
  unfold transpose_matr
  rw [loop_write_hit (fun i l => ∃ j', j' < K ∧ l = j' * M + i)
    (fun l => p (l % M * K + l / M)) _ M
    (by
      intro i' hi' d l hl
      obtain ⟨j', hj', rfl⟩ := hl
      rw [loop_write_hit (fun j l => l = j * M + i') (fun l => p (l % M * K + l / M)) _ K
        (by
          intro j2 _ d2 l2 hl2
          subst hl2
          simp only [Function.update_same, rowcol_div hi', rowcol_mod hi'])
        (by intro j2 _ d2 l2 hl2; exact Function.update_noteq hl2 _ d2)
        d _ j' hj' rfl])
    (by
      intro i' _ d l hl
      exact loop_miss (fun j l => l = j * M + i') _ K
        (by intro j2 _ d2 l2 hl2; exact Function.update_noteq hl2 _ d2)
        d l (fun j2 hj2 he => hl ⟨j2, hj2, he⟩))
    pT _ i hi ⟨j, hj, rfl⟩]
  simp only [rowcol_div hi, rowcol_mod hi]

/-! ### Claim theorems -/

/-- C1: for every shape (M, K, N) satisfying each variant's divisibility
preconditions (N a multiple of 16 for `multiply_v1_aT` and `multiply_v2_aT`;
both M and N multiples of 16 for `multiply_v3_aT`) and all input buffers,
the output of each variant is elementwise within the absolute tolerance
`1e-4` of the naive reference output of `multiply_v0_aT`. -/
theorem C1_variants_within_tolerance (aT b c0 c1 c2 c3 : ℕ → ℚ) (M K N m n : ℕ)
    (hm : m < M) (hn : n < N) :
    (N % 16 = 0 → ∃ r, multiply_v1_aT aT b c1 M K N = some r ∧
      epsilon_equal (r (m * N + n)) (multiply_v0_aT aT b c0 M K N (m * N + n)) = true) ∧
    (N % 16 = 0 → ∃ r, multiply_v2_aT aT b c2 M K N = some r ∧
      epsilon_equal (r (m * N + n)) (multiply_v0_aT aT b c0 M K N (m * N + n)) = true) ∧
    (N % 16 = 0 → M % 16 = 0 → ∃ r, multiply_v3_aT aT b c3 M K N = some r ∧
      epsilon_equal (r (m * N + n)) (multiply_v0_aT aT b c0 M K N (m * N + n)) = true) := by
  have hv0 := multiply_v0_aT_elem aT b c0 M K N m n hm hn
  have heps : ∀ x : ℚ, epsilon_equal x x = true := by
    intro x
    unfold epsilon_equal
    rw [sub_self, abs_zero]
    norm_num
  refine ⟨?_, ?_, ?_⟩
  · intro hN
    refine ⟨mul1aT_m aT b M K N c1, by simp [multiply_v1_aT, hN], ?_⟩
    rw [mul1aT_m_elem aT b M K N c1 m n hN hm hn, hv0]
    exact heps _
  · intro hN
    refine ⟨mul2aT_m aT b M K N c2, by simp [multiply_v2_aT, hN], ?_⟩
    rw [mul2aT_m_elem aT b M K N c2 m n hN hm hn, hv0]
    exact heps _
  · intro hN hM
    refine ⟨mul3aT_m1 aT b M K N c3, by simp [multiply_v3_aT, hN, hM], ?_⟩
    rw [mul3aT_m1_elem aT b M K N c3 m n hN hM hm hn, hv0]
    exact heps _

/-- Witness for C1 at the concrete shape M = 16, K = 1, N = 16. -/
theorem C1_variants_within_tolerance_witness :
    (∃ r, multiply_v1_aT (fun _ => 1) (fun _ => 2) (fun _ => 3) 16 1 16 = some r ∧
      epsilon_equal (r (0 * 16 + 0))
        (multiply_v0_aT (fun _ => 1) (fun _ => 2) (fun _ => 0) 16 1 16 (0 * 16 + 0)) = true) ∧
    (∃ r, multiply_v2_aT (fun _ => 1) (fun _ => 2) (fun _ => 4) 16 1 16 = some r ∧
      epsilon_equal (r (0 * 16 + 0))
        (multiply_v0_aT (fun _ => 1) (fun _ => 2) (fun _ => 0) 16 1 16 (0 * 16 + 0)) = true) ∧
    (∃ r, multiply_v3_aT (fun _ => 1) (fun _ => 2) (fun _ => 5) 16 1 16 = some r ∧
      epsilon_equal (r (0 * 16 + 0))
        (multiply_v0_aT (fun _ => 1) (fun _ => 2) (fun _ => 0) 16 1 16 (0 * 16 + 0)) = true) := by
  have h := C1_variants_within_tolerance (fun _ => 1) (fun _ => 2) (fun _ => 0)
    (fun _ => 3) (fun _ => 4) (fun _ => 5) 16 1 16 0 0 (by decide) (by decide)
  exact ⟨h.1 rfl, h.2.1 rfl, h.2.2 rfl rfl⟩

/-- C2: the naive kernel result is invariant to the storage convention of
each operand: `multiply_v0_bT(a, transpose(b))` equals
`multiply_v0_aT(transpose(a), b)` elementwise. -/
theorem C2_layout_invariance (a b aT0 bT0 c c' : ℕ → ℚ) (M K N m n : ℕ)
    (hm : m < M) (hn : n < N) :
    multiply_v0_bT a (transpose_matr b bT0 K N) c M K N (m * N + n)
      = multiply_v0_aT (transpose_matr a aT0 M K) b c' M K N (m * N + n) := by
  rw [multiply_v0_bT_elem _ _ c M K N m n hm hn,
    multiply_v0_aT_elem _ _ c' M K N m n hm hn]
  unfold entry_bT entry_aT
  refine Finset.sum_congr rfl ?_
  intro k hk
  rw [Finset.mem_range] at hk
  rw [transpose_matr_elem b bT0 K N k n hk hn,
    transpose_matr_elem a aT0 M K m k hm hk]

/-- Witness for C2 at the concrete shape M = 2, K = 3, N = 2, element (1, 1). -/
theorem C2_layout_invariance_witness :
    multiply_v0_bT (fun i => (i : ℚ)) (transpose_matr (fun i => (i + 7 : ℚ)) (fun _ => 0) 3 2)
        (fun _ => 0) 2 3 2 (1 * 2 + 1)
      = multiply_v0_aT (transpose_matr (fun i => (i : ℚ)) (fun _ => 0) 2 3)
        (fun i => (i + 7 : ℚ)) (fun _ => 5) 2 3 2 (1 * 2 + 1) :=
  C2_layout_invariance (fun i => (i : ℚ)) (fun i => (i + 7 : ℚ)) (fun _ => 0) (fun _ => 0)
    (fun _ => 0) (fun _ => 5) 2 3 2 1 1 (by decide) (by decide)

/-- C3 counterexample: `multiply_v1_aT` does not reject shapes whose
contraction dimension K is not a multiple of 16.  With K = 1 and N = 16 the
assertion passes and an output is produced, refuting the claim that every
call with `K % 16 ≠ 0` is rejected. -/
theorem C3_counterexample :
    1 % 16 ≠ 0 ∧
      (multiply_v1_aT (fun _ => 0) (fun _ => 0) (fun _ => 0) 1 1 16).isSome = true := by
  constructor
  · decide
  · rfl

/-- C3 (amended): the divisibility precondition of `multiply_v1_aT` is on
the output column dimension N, not on the contraction dimension K: the
variant rejects (producing no output) exactly the calls with `N % 16 ≠ 0`,
and accepts every call with `N % 16 = 0` whatever K is. -/
theorem C3_v1_precondition_is_on_N (aT b c : ℕ → ℚ) (M K N : ℕ) :
    (N % 16 ≠ 0 → multiply_v1_aT aT b c M K N = none) ∧
    (N % 16 = 0 → (multiply_v1_aT aT b c M K N).isSome = true) := by
  constructor
  · intro h
    simp [multiply_v1_aT, h]
  · intro h
    simp [multiply_v1_aT, h]

/-- Witness for the amended C3: N = 1 is rejected, N = 16 is accepted
(with K = 1 in both calls). -/
theorem C3_v1_precondition_is_on_N_witness :
    multiply_v1_aT (fun _ => 0) (fun _ => 0) (fun _ => 0) 1 1 1 = none ∧
    (multiply_v1_aT (fun _ => 0) (fun _ => 0) (fun _ => 0) 1 1 16).isSome = true :=
  ⟨(C3_v1_precondition_is_on_N (fun _ => 0) (fun _ => 0) (fun _ => 0) 1 1 1).1 (by decide),
   (C3_v1_precondition_is_on_N (fun _ => 0) (fun _ => 0) (fun _ => 0) 1 1 16).2 (by decide)⟩

/-- C4: the blocked variants fail fast on tiling precondition violations,
producing no output: `multiply_v2_aT` rejects whenever `N % 16 ≠ 0`, and
`multiply_v3_aT` rejects whenever `N % 16 ≠ 0` or `M % 16 ≠ 0`. -/
theorem C4_blocked_variants_reject (aT b c : ℕ → ℚ) (M K N : ℕ) :
    (N % 16 ≠ 0 → multiply_v2_aT aT b c M K N = none) ∧
    (N % 16 ≠ 0 ∨ M % 16 ≠ 0 → multiply_v3_aT aT b c M K N = none) := by
  constructor
  · intro h
    simp [multiply_v2_aT, h]
  · intro h
    have hc : ¬ (N % 16 = 0 ∧ M % 16 = 0) := by tauto
    simp [multiply_v3_aT, hc]

/-- Witness for C4: `multiply_v2_aT` rejects N = 1, and `multiply_v3_aT`
rejects M = 1 even with N = 16. -/
theorem C4_blocked_variants_reject_witness :
    multiply_v2_aT (fun _ => 0) (fun _ => 0) (fun _ => 0) 16 1 1 = none ∧
    multiply_v3_aT (fun _ => 0) (fun _ => 0) (fun _ => 0) 1 1 16 = none :=
  ⟨(C4_blocked_variants_reject (fun _ => 0) (fun _ => 0) (fun _ => 0) 16 1 1).1 (by decide),
   (C4_blocked_variants_reject (fun _ => 0) (fun _ => 0) (fun _ => 0) 1 1 16).2
     (Or.inr (by decide))⟩

/-- C5 counterexample: `multiply_v2_aT` and `multiply_v3_aT` do NOT rely on
an externally zero-initialized output buffer: at the shape
M = 16, K = 1, N = 16 with all-ones inputs (true product all ones), no
initial contents of the output buffer make any in-range output element
differ from the true product. -/
theorem C5_counterexample :
    ¬ ∃ cInit : ℕ → ℚ, ∃ r : ℕ → ℚ, ∃ m, ∃ n, m < 16 ∧ n < 16 ∧
      (multiply_v2_aT (fun _ => 1) (fun _ => 1) cInit 16 1 16 = some r ∨
        multiply_v3_aT (fun _ => 1) (fun _ => 1) cInit 16 1 16 = some r) ∧
      r (m * 16 + n) ≠ 1 := by
  rintro ⟨cInit, r, m, n, hm, hn, hor, hne⟩
  apply hne
  rcases hor with h | h
  · simp [multiply_v2_aT] at h
    rw [← h, mul2aT_m_elem (fun _ => 1) (fun _ => 1) 16 1 16 cInit m n rfl hm hn]
    simp [entry_aT]
  · simp [multiply_v3_aT] at h
    rw [← h, mul3aT_m1_elem (fun _ => 1) (fun _ => 1) 16 1 16 cInit m n rfl rfl hm hn]
    simp [entry_aT]

/-- C5 (amended): `multiply_v2_aT` and `multiply_v3_aT` zero-initialize the
output buffer inline before accumulating, so the result they compute at
every in-range output index is independent of the output buffer's initial
contents; no external zero-initialization is required from the caller. -/
theorem C5_inline_zeroing (aT b c c' : ℕ → ℚ) (M K N : ℕ) (j : ℕ) (hj : j < M * N) :
    (N % 16 = 0 → ∀ r r', multiply_v2_aT aT b c M K N = some r →
      multiply_v2_aT aT b c' M K N = some r' → r j = r' j) ∧
    (N % 16 = 0 → M % 16 = 0 → ∀ r r', multiply_v3_aT aT b c M K N = some r →
      multiply_v3_aT aT b c' M K N = some r' → r j = r' j) := by
  constructor
  · intro hN r r' h h'
    simp [multiply_v2_aT, hN] at h h'
    rw [← h, ← h']
    exact mul2aT_m_indep aT b M K N c c' j hN hj
  · intro hN hM r r' h h'
    simp [multiply_v3_aT, hN, hM] at h h'
    rw [← h, ← h']
    exact mul3aT_m1_indep aT b M K N c c' j hN hM hj

/-- Witness for the amended C5 at M = 16, K = 1, N = 16, comparing a stale
all-fives initial buffer with an all-zero one. -/
theorem C5_inline_zeroing_witness :
    mul2aT_m (fun _ => 1) (fun _ => 1) 16 1 16 (fun _ => 5) 0
      = mul2aT_m (fun _ => 1) (fun _ => 1) 16 1 16 (fun _ => 0) 0 ∧
    mul3aT_m1 (fun _ => 1) (fun _ => 1) 16 1 16 (fun _ => 5) 0
      = mul3aT_m1 (fun _ => 1) (fun _ => 1) 16 1 16 (fun _ => 0) 0 := by
  have h := C5_inline_zeroing (fun _ => 1) (fun _ => 1) (fun _ => 5) (fun _ => 0)
    16 1 16 0 (by decide)
  exact ⟨h.1 rfl _ _ rfl rfl, h.2 rfl rfl _ _ rfl rfl⟩

/-- C6: applying `transpose_matr` twice with swapped dimensions reproduces
the original buffer exactly at every index of the M-by-K buffer. -/
theorem C6_transpose_roundtrip (p q r : ℕ → ℚ) (M K : ℕ) (l : ℕ) (hl : l < M * K) :
    transpose_matr (transpose_matr p q M K) r K M l = p l := by
  have hK : 0 < K := by
    rcases Nat.eq_zero_or_pos K with h0 | h
    · subst h0
      simp at hl
    · exact h
  have hi : l / K < M := by
    rw [Nat.div_lt_iff_lt_mul hK]
    exact hl
  have hj : l % K < K := Nat.mod_lt l hK
  have e : l / K * K + l % K = l := Nat.div_add_mod' l K
  calc transpose_matr (transpose_matr p q M K) r K M l
      = transpose_matr (transpose_matr p q M K) r K M (l / K * K + l % K) := by rw [e]
    _ = transpose_matr p q M K (l % K * M + l / K) :=
        transpose_matr_elem (transpose_matr p q M K) r K M (l % K) (l / K) hj hi
    _ = p (l / K * K + l % K) := transpose_matr_elem p q M K (l / K) (l % K) hi hj
    _ = p l := by rw [e]

/-- Witness for C6 at M = 2, K = 3, index 4. -/
theorem C6_transpose_roundtrip_witness :
    transpose_matr (transpose_matr (fun i => (i : ℚ)) (fun _ => 7) 2 3) (fun _ => 9) 3 2 4
      = (fun i => (i : ℚ)) 4 :=
  C6_transpose_roundtrip (fun i => (i : ℚ)) (fun _ => 7) (fun _ => 9) 2 3 4 (by decide)

/-- C7: on the concrete inputs A = [[1,2],[3,4],[5,6]] (3 by 2) and B given
in transposed storage as the 4-by-2 buffer [[6,5],[4,3],[2,1],[1,2]], the
naive kernel `multiply_v0_bT` produces exactly
C = [[16,10,4,5],[38,24,10,11],[60,38,16,17]]. -/
theorem C7_tiny_example :
    ∀ m n, m < 3 → n < 4 →
      multiply_v0_bT
          (fun i => ([1, 2, 3, 4, 5, 6] : List ℚ).getD i 0)
          (fun i => ([6, 5, 4, 3, 2, 1, 1, 2] : List ℚ).getD i 0)
          (fun _ => 0) 3 2 4 (m * 4 + n)
        = ([16, 10, 4, 5, 38, 24, 10, 11, 60, 38, 16, 17] : List ℚ).getD (m * 4 + n) 0 := by
  intro m n hm hn
  rw [multiply_v0_bT_elem _ _ _ 3 2 4 m n hm hn]
  interval_cases m <;> interval_cases n <;>
    norm_num [entry_bT, Finset.sum_range_succ, List.getD]

/-- Witness for C7 at the bottom-right element (2, 3). -/
theorem C7_tiny_example_witness :
    multiply_v0_bT
        (fun i => ([1, 2, 3, 4, 5, 6] : List ℚ).getD i 0)
        (fun i => ([6, 5, 4, 3, 2, 1, 1, 2] : List ℚ).getD i 0)
        (fun _ => 0) 3 2 4 (2 * 4 + 3)
      = ([16, 10, 4, 5, 38, 24, 10, 11, 60, 38, 16, 17] : List ℚ).getD (2 * 4 + 3) 0 :=
  C7_tiny_example 2 3 (by decide) (by decide)

/-- C8: `epsilon_equal x y` returns true iff `|x - y|` is strictly below
the fixed absolute tolerance `1e-4`; in particular it returns false
whenever `|x - y| ≥ 1e-4`. -/
theorem C8_epsilon_equal_iff (x y : ℚ) :
    (epsilon_equal x y = true ↔ |x - y| < 1 / 10000) ∧
    (1 / 10000 ≤ |x - y| → epsilon_equal x y = false) := by
  constructor
  · simp [epsilon_equal]
  · intro h
    simp only [epsilon_equal, decide_eq_false_iff_not]
    exact not_lt.mpr h

/-- Witness for C8: equal values compare true, distance 1 compares false. -/
theorem C8_epsilon_equal_iff_witness :
    (epsilon_equal 0 0 = true ↔ |(0 : ℚ) - 0| < 1 / 10000) ∧
    epsilon_equal 1 0 = false :=
  ⟨(C8_epsilon_equal_iff 0 0).1, (C8_epsilon_equal_iff 1 0).2 (by norm_num)⟩

/-- C9: `transpose_matr` writes exactly the K-by-M transpose: the output at
flat index `j*M + i` is the input at `i*K + j` for all `i < M`, `j < K`,
and every one of the M*K output elements is written accordingly. -/
theorem C9_transpose_spec (p pT : ℕ → ℚ) (M K : ℕ) :
    (∀ i j, i < M → j < K → transpose_matr p pT M K (j * M + i) = p (i * K + j)) ∧
    (∀ l, l < M * K → ∃ i j, i < M ∧ j < K ∧ l = j * M + i ∧
      transpose_matr p pT M K l = p (i * K + j)) := by
  constructor
  · intro i j hi hj
    exact transpose_matr_elem p pT M K i j hi hj
  · intro l hl
    have hM : 0 < M := by
      rcases Nat.eq_zero_or_pos M with h0 | h
      · subst h0
        simp at hl
      · exact h
    have hjK : l / M < K := by
      rw [Nat.div_lt_iff_lt_mul hM, Nat.mul_comm]
      exact hl
    have hiM : l % M < M := Nat.mod_lt l hM
    refine ⟨l % M, l / M, hiM, hjK, (Nat.div_add_mod' l M).symm, ?_⟩
    have h := transpose_matr_elem p pT M K (l % M) (l / M) hiM hjK
    rw [Nat.div_add_mod' l M] at h
    exact h

/-- Witness for C9 at M = 2, K = 3: element (1, 1) and coverage of flat
index 5. -/
theorem C9_transpose_spec_witness :
    transpose_matr (fun i => (i : ℚ)) (fun _ => 0) 2 3 (1 * 2 + 1)
      = ((1 * 3 + 1 : ℕ) : ℚ) ∧
    ∃ i j, i < 2 ∧ j < 3 ∧ 5 = j * 2 + i ∧
      transpose_matr (fun i => (i : ℚ)) (fun _ => 0) 2 3 5 = ((i * 3 + j : ℕ) : ℚ) :=
  ⟨(C9_transpose_spec (fun i => (i : ℚ)) (fun _ => 0) 2 3).1 1 1 (by decide) (by decide),
   (C9_transpose_spec (fun i => (i : ℚ)) (fun _ => 0) 2 3).2 5 (by decide)⟩

/-- C10: when the contraction dimension K is 0, every multiply variant
(under its own divisibility preconditions for the blocked ones) writes the
all-zero M-by-N matrix. -/
theorem C10_zero_contraction (a bT aT b cb ca c1 c2 c3 : ℕ → ℚ) (M N : ℕ) (j : ℕ)
    (hj : j < M * N) :
    multiply_v0_bT a bT cb M 0 N j = 0 ∧
    multiply_v0_aT aT b ca M 0 N j = 0 ∧
    (N % 16 = 0 → ∀ r, multiply_v1_aT aT b c1 M 0 N = some r → r j = 0) ∧
    (N % 16 = 0 → ∀ r, multiply_v2_aT aT b c2 M 0 N = some r → r j = 0) ∧
    (N % 16 = 0 → M % 16 = 0 → ∀ r, multiply_v3_aT aT b c3 M 0 N = some r → r j = 0) := by
  have hN0 : 0 < N := by
    rcases Nat.eq_zero_or_pos N with h0 | h
    · subst h0
      simp at hj
    · exact h
  have hdiv : j / N < M := by
    rw [Nat.div_lt_iff_lt_mul hN0]
    exact hj
  have hmod : j % N < N := Nat.mod_lt j hN0
  have e : j / N * N + j % N = j := Nat.div_add_mod' j N
  refine ⟨?_, ?_, ?_, ?_, ?_⟩
  · calc multiply_v0_bT a bT cb M 0 N j
        = multiply_v0_bT a bT cb M 0 N (j / N * N + j % N) := by rw [e]
      _ = entry_bT a bT 0 (j / N) (j % N) := multiply_v0_bT_elem a bT cb M 0 N _ _ hdiv hmod
      _ = 0 := by simp [entry_bT]
  · calc multiply_v0_aT aT b ca M 0 N j
        = multiply_v0_aT aT b ca M 0 N (j / N * N + j % N) := by rw [e]
      _ = entry_aT aT b M 0 N (j / N) (j % N) := multiply_v0_aT_elem aT b ca M 0 N _ _ hdiv hmod
      _ = 0 := by simp [entry_aT]
  · intro hN r hr
    simp [multiply_v1_aT, hN] at hr
    rw [← hr]
    calc mul1aT_m aT b M 0 N c1 j
        = mul1aT_m aT b M 0 N c1 (j / N * N + j % N) := by rw [e]
      _ = entry_aT aT b M 0 N (j / N) (j % N) := mul1aT_m_elem aT b M 0 N c1 _ _ hN hdiv hmod
      _ = 0 := by simp [entry_aT]
  · intro hN r hr
    simp [multiply_v2_aT, hN] at hr
    rw [← hr]
    calc mul2aT_m aT b M 0 N c2 j
        = mul2aT_m aT b M 0 N c2 (j / N * N + j % N) := by rw [e]
      _ = entry_aT aT b M 0 N (j / N) (j % N) := mul2aT_m_elem aT b M 0 N c2 _ _ hN hdiv hmod
      _ = 0 := by simp [entry_aT]
  · intro hN hM r hr
    simp [multiply_v3_aT, hN, hM] at hr
    rw [← hr]
    calc mul3aT_m1 aT b M 0 N c3 j
        = mul3aT_m1 aT b M 0 N c3 (j / N * N + j % N) := by rw [e]
      _ = entry_aT aT b M 0 N (j / N) (j % N) :=
          mul3aT_m1_elem aT b M 0 N c3 _ _ hN hM hdiv hmod
      _ = 0 := by simp [entry_aT]

/-- Witness for C10 at M = 16, N = 16, K = 0, index 0. -/
theorem C10_zero_contraction_witness :
    multiply_v0_bT (fun _ => 1) (fun _ => 2) (fun _ => 5) 16 0 16 0 = 0 ∧
    multiply_v0_aT (fun _ => 3) (fun _ => 4) (fun _ => 6) 16 0 16 0 = 0 ∧
    mul1aT_m (fun _ => 3) (fun _ => 4) 16 0 16 (fun _ => 7) 0 = 0 ∧
    mul2aT_m (fun _ => 3) (fun _ => 4) 16 0 16 (fun _ => 8) 0 = 0 ∧
    mul3aT_m1 (fun _ => 3) (fun _ => 4) 16 0 16 (fun _ => 9) 0 = 0 := by
  have h := C10_zero_contraction (fun _ => 1) (fun _ => 2) (fun _ => 3) (fun _ => 4)
    (fun _ => 5) (fun _ => 6) (fun _ => 7) (fun _ => 8) (fun _ => 9) 16 16 0 (by decide)
  exact ⟨h.1, h.2.1, h.2.2.1 rfl _ rfl, h.2.2.2.1 rfl _ rfl, h.2.2.2.2 rfl rfl _ rfl⟩

end TvmLearn
